import Mathlib

/-!
Shallow embedding of `src/function/logger.go` from the basvanbeek/telemetry
repository: a function-backed `Logger` that gates log calls by a shared
mutable severity threshold, accumulates key/value pairs, records an optional
metric on `Info`/`Error`, and dispatches to an injected emit sink.

Go interface values (`interface{}`) are modelled by `GoVal`; the only type
assertion the source performs is `.(string)`, so one constructor carries a
string and one carries an opaque non-string payload. The shared `*int32`
level pointer is modelled by an index into an explicit heap of cells; all
other Logger fields are plain values. Logging methods return the list of
observable events (metric records and sink invocations) they perform.
-/

namespace Telemetry

/-- A Go `interface{}` value as used by the logger: either a `string`
(the only type the source ever asserts on) or an opaque non-string value. -/
inductive GoVal where
  | str : String → GoVal
  | nonstr : Nat → GoVal
deriving DecidableEq, Repr

/-- Modelled from the spec: the missing `context.Context` type is consumed
only through `telemetry.KeyValuesFromContext`, "an extraction function
returning its accumulated key/value pairs as an ordered sequence", so a
context is represented by the ordered key/value sequence it carries.
`context.Background()` is the empty sequence. -/
abbrev Ctx := List GoVal

/-- Modelled from the spec: extraction of the key/value pairs carried by a
context (`telemetry.KeyValuesFromContext`, defined outside `src/`). -/
def KeyValuesFromContext (c : Ctx) : List GoVal := c

/-- Modelled from the spec: `telemetry.LevelNone`. The level constants are
declared outside `src/`; the spec fixes only the ordering
None < Error < Info < Debug with room for undefined intermediate values,
which these concrete integers realise. -/
def LevelNone : Int := 0

/-- Modelled from the spec: `telemetry.LevelError`. -/
def LevelError : Int := 5

/-- Modelled from the spec: `telemetry.LevelInfo`. -/
def LevelInfo : Int := 10

/-- Modelled from the spec: `telemetry.LevelDebug`. -/
def LevelDebug : Int := 15

/-- The heap of `int32` level cells; the `level *int32` field of a Logger is an
index into `cells`. -/
structure Heap where
  cells : List Int
deriving DecidableEq, Repr

/-- Atomic load through a level pointer (`atomic.LoadInt32`). -/
def Heap.read (h : Heap) (p : Nat) : Int := h.cells.getD p 0

/-- Atomic store through a level pointer (`atomic.StoreInt32`). -/
def Heap.write (h : Heap) (p : Nat) (v : Int) : Heap := ⟨h.cells.set p v⟩

/-- Allocation of a fresh level cell (`lvl := ...; &lvl`). -/
def Heap.alloc (h : Heap) (v : Int) : Heap × Nat := (⟨h.cells ++ [v]⟩, h.cells.length)

/-- The `Values` struct passed to the emit sink: the three separately
labeled key/value sequences. -/
structure Values where
  FromContext : List GoVal
  FromLogger : List GoVal
  FromMethod : List GoVal
deriving DecidableEq, Repr

/-- An observable effect of a logging call: a metric record
(`metric.RecordContext(ctx, 1)`) or an invocation of the emit sink. -/
inductive Event where
  | metricRecord : Nat → Ctx → Int → Event
  | sinkCall : Int → String → Option Nat → Values → Int → Event
deriving DecidableEq, Repr

/-- The `Logger` struct. `metric` is `none` for a nil metric; `hasEmitFunc`
records whether `emitFunc` is nil (the sink itself is observed through
`Event.sinkCall`); `level` is the pointer into the level heap. -/
structure Logger where
  ctx : Ctx
  args : List GoVal
  metric : Option Nat
  level : Nat
  hasEmitFunc : Bool
  callerSkip : Int
deriving DecidableEq, Repr

/-- Constructor `NewLogger`: fresh level cell initialised to `LevelInfo`, background
context, nil args and metric. -/
def NewLogger (hasEmit : Bool) (callerSkip : Int) (h : Heap) : Logger × Heap :=
  let (h2, p) := h.alloc LevelInfo
  ({ ctx := [], args := [], metric := none, level := p,
     hasEmitFunc := hasEmit, callerSkip := callerSkip }, h2)

/-- Method `Level`: atomic load of the configured level. -/
def Logger.Level (l : Logger) (h : Heap) : Int := h.read l.level

/-- Method `SetLevel`: quantise via the switch of the source, then atomic store. -/
def Logger.SetLevel (l : Logger) (level : Int) (h : Heap) : Heap :=
  let lvl :=
    if level < LevelError then LevelNone
    else if level < LevelInfo then LevelError
    else if level < LevelDebug then LevelInfo
    else LevelDebug
  h.write l.level lvl

/-- Method `enabled`: the gate `l.emitFunc != nil && level <= l.Level()`. -/
def Logger.enabled (l : Logger) (level : Int) (h : Heap) : Bool :=
  l.hasEmitFunc && decide (level ≤ l.Level h)

/-- Method `emit`: invoke the sink with the three separately labeled sequences and
the caller-skip depth; the call-site `keyValues` pass through unvalidated. -/
def Logger.emit (l : Logger) (level : Int) (msg : String) (err : Option Nat)
    (keyValues : List GoVal) : Event :=
  Event.sinkCall level msg err
    { FromContext := KeyValuesFromContext l.ctx
      FromLogger := l.args
      FromMethod := keyValues }
    l.callerSkip

/-- Method `Debug`: gated by `enabled LevelDebug`; no metric. -/
def Logger.Debug (l : Logger) (h : Heap) (msg : String)
    (keyValues : List GoVal) : List Event :=
  if !l.enabled LevelDebug h then []
  else [l.emit LevelDebug msg none keyValues]

/-- Method `Info`: the metric, when set, is recorded before the
gating check; emission is gated by `enabled(LevelInfo)`. -/
def Logger.Info (l : Logger) (h : Heap) (msg : String)
    (keyValues : List GoVal) : List Event :=
  (match l.metric with
    | some m => [Event.metricRecord m l.ctx 1]
    | none => []) ++
  if !l.enabled LevelInfo h then []
  else [l.emit LevelInfo msg none keyValues]

/-- Method `Error`: metric first when set, then gated by
`enabled LevelError`; the error given by the caller is forwarded verbatim. -/
def Logger.Error (l : Logger) (h : Heap) (msg : String) (err : Option Nat)
    (keyValues : List GoVal) : List Event :=
  (match l.metric with
    | some m => [Event.metricRecord m l.ctx 1]
    | none => []) ++
  if !l.enabled LevelError h then []
  else [l.emit LevelError msg err keyValues]

/-- Helper `newLoggerWithValues`: build a Logger from the given data; the Go
`make`/`copy` of `args` is value copying, captured here by plain list
values (the aliasing content is modelled separately by the slice model). -/
def newLoggerWithValues (ctx : Ctx) (m : Option Nat) (lvl : Nat)
    (hasEmit : Bool) (args : List GoVal) (cs : Int) : Logger :=
  { ctx := ctx, args := args, metric := m, level := lvl,
    hasEmitFunc := hasEmit, callerSkip := cs }

/-- The `With` append loop over an even-length sequence: step two at a
time, keeping a pair exactly when its key asserts to `string`. -/
def filterPairs : List GoVal → List GoVal
  | GoVal.str k :: v :: rest => GoVal.str k :: v :: filterPairs rest
  | _ :: _ :: rest => filterPairs rest
  | _ => []

/-- Method `With`: identity on empty input; otherwise pad an odd
sequence with the `"(MISSING)"` sentinel, copy the receiver into a new
Logger sharing the level pointer, and append the string-keyed pairs. -/
def Logger.With (l : Logger) (keyValues : List GoVal) : Logger :=
  if keyValues.length == 0 then l
  else
    let kvs :=
      if keyValues.length % 2 != 0 then keyValues ++ [GoVal.str "(MISSING)"]
      else keyValues
    let newLogger := newLoggerWithValues l.ctx l.metric l.level l.hasEmitFunc l.args l.callerSkip
    { newLogger with args := newLogger.args ++ filterPairs kvs }

/-- Method `Context`: substitute the context, share everything else
(including the level pointer). -/
def Logger.Context (l : Logger) (c : Ctx) : Logger :=
  newLoggerWithValues c l.metric l.level l.hasEmitFunc l.args l.callerSkip

/-- Method `Metric`: substitute the metric, share everything else
(including the level pointer). -/
def Logger.Metric (l : Logger) (m : Option Nat) : Logger :=
  newLoggerWithValues l.ctx m l.level l.hasEmitFunc l.args l.callerSkip

/-- Method `Clone`: dereference the level pointer into a fresh cell so the two
loggers no longer share a threshold. -/
def Logger.Clone (l : Logger) (h : Heap) : Logger × Heap :=
  let lvl := h.read l.level
  let (h2, p) := h.alloc lvl
  (newLoggerWithValues l.ctx l.metric p l.hasEmitFunc l.args l.callerSkip, h2)

end Telemetry

namespace Telemetry

def sampleLogger : Logger :=
  { ctx := [], args := [], metric := none, level := 0,
    hasEmitFunc := true, callerSkip := 0 }

theorem Heap.length_write (h : Heap) (p : Nat) (v : Int) :
    (h.write p v).cells.length = h.cells.length := by
  simp [Heap.write]

theorem Heap.read_write_self (h : Heap) (p : Nat) (v : Int)
    (hp : p < h.cells.length) : (h.write p v).read p = v := by
  simp [Heap.read, Heap.write, List.getD_eq_getElem?_getD, List.getElem?_set_self hp]

theorem Heap.read_write_ne (h : Heap) (p q : Nat) (v : Int) (hpq : p ≠ q) :
    (h.write p v).read q = h.read q := by
  simp [Heap.read, Heap.write, List.getD_eq_getElem?_getD, List.getElem?_set_ne hpq]

theorem Heap.read_alloc_old (h : Heap) (v : Int) (p : Nat)
    (hp : p < h.cells.length) : (h.alloc v).1.read p = h.read p := by
  simp [Heap.read, Heap.alloc, List.getElem?_append_left hp]

theorem Heap.read_alloc_new (h : Heap) (v : Int) :
    (h.alloc v).1.read (h.alloc v).2 = v := by
  simp [Heap.read, Heap.alloc, List.getD_append_right _ _ _ _ (Nat.le_refl _)]

theorem With_level (l : Logger) (kvs : List GoVal) : (l.With kvs).level = l.level := by
  unfold Logger.With
  split
  · rfl
  · simp [newLoggerWithValues]

/-- C1: `Context`, `Metric` and `With` derivations share the severity
threshold of the receiver (same level cell, so `SetLevel` through either
is immediately observable through `Level` on the other under every heap),
while `Clone` forks it: the clone starts at the current value of the
receiver, and `SetLevel` on the receiver does not move `Level` of the
clone, nor does `SetLevel` on the clone move `Level` of the receiver. -/
theorem c1_shared_vs_forked_threshold (l : Logger) (h : Heap) (c : Ctx)
    (m : Option Nat) (kvs : List GoVal) (v : Int)
    (hp : l.level < h.cells.length) :
    ((l.Context c).level = l.level ∧ (l.Metric m).level = l.level ∧
      (l.With kvs).level = l.level) ∧
    (∀ h2 : Heap, (l.Context c).Level h2 = l.Level h2 ∧
      (l.Metric m).Level h2 = l.Level h2 ∧
      (l.With kvs).Level h2 = l.Level h2 ∧
      (l.Context c).Level (l.SetLevel v h2) = l.Level (l.SetLevel v h2)) ∧
    ((l.Clone h).1.Level (l.Clone h).2 = l.Level h) ∧
    ((l.Clone h).1.Level (l.SetLevel v (l.Clone h).2) = l.Level h) ∧
    (l.Level ((l.Clone h).1.SetLevel v (l.Clone h).2) = l.Level h) := by
  have hctx : (l.Context c).level = l.level := rfl
  have hmet : (l.Metric m).level = l.level := rfl
  have hwith := With_level l kvs
  have hclvl : (l.Clone h).1.level = h.cells.length := rfl
  have hc2 : (l.Clone h).2 = (h.alloc (h.read l.level)).1 := rfl
  refine ⟨⟨hctx, hmet, hwith⟩, ?_, ?_, ?_, ?_⟩
  · intro h2
    exact ⟨by simp [Logger.Level, hctx], by simp [Logger.Level, hmet],
      by simp [Logger.Level, hwith], by simp [Logger.Level, hctx]⟩
  · show (h.alloc (h.read l.level)).1.read (h.alloc (h.read l.level)).2 = _
    exact Heap.read_alloc_new h _
  · show ((l.Clone h).2.write l.level _).read h.cells.length = _
    rw [Heap.read_write_ne _ _ _ _ (Nat.ne_of_lt hp)]
    exact Heap.read_alloc_new h _
  · show ((l.Clone h).2.write h.cells.length _).read l.level = _
    rw [Heap.read_write_ne _ _ _ _ (Nat.ne_of_gt hp)]
    exact Heap.read_alloc_old h _ _ hp

theorem c1_witness :
    0 < (Heap.mk [LevelInfo]).cells.length ∧
    ((sampleLogger.Context [GoVal.str "a"]).level = sampleLogger.level ∧
      (sampleLogger.Metric (some 1)).level = sampleLogger.level ∧
      (sampleLogger.With [GoVal.str "k"]).level = sampleLogger.level) ∧
    ((sampleLogger.Clone (Heap.mk [LevelInfo])).1.Level
        (sampleLogger.Clone (Heap.mk [LevelInfo])).2
      = sampleLogger.Level (Heap.mk [LevelInfo])) := by
  have h := c1_shared_vs_forked_threshold sampleLogger (Heap.mk [LevelInfo])
    [GoVal.str "a"] (some 1) [GoVal.str "k"] LevelDebug (by decide)
  exact ⟨by decide, h.1, h.2.2.1⟩

/-- C2: `SetLevel v` stores a quantised level: a subsequent `Level` returns
None when `v < Error`, Error when `Error ≤ v < Info`, Info when
`Info ≤ v < Debug`, and Debug when `v ≥ Debug`. -/
theorem c2_setLevel_quantization (l : Logger) (h : Heap) (v : Int)
    (hp : l.level < h.cells.length) :
    (v < LevelError → l.Level (l.SetLevel v h) = LevelNone) ∧
    (LevelError ≤ v → v < LevelInfo → l.Level (l.SetLevel v h) = LevelError) ∧
    (LevelInfo ≤ v → v < LevelDebug → l.Level (l.SetLevel v h) = LevelInfo) ∧
    (LevelDebug ≤ v → l.Level (l.SetLevel v h) = LevelDebug) := by
  have key : l.Level (l.SetLevel v h) =
      (if v < LevelError then LevelNone
       else if v < LevelInfo then LevelError
       else if v < LevelDebug then LevelInfo
       else LevelDebug) := by
    simp only [Logger.Level, Logger.SetLevel]
    exact Heap.read_write_self h l.level _ hp
  rw [key]
  refine ⟨?_, ?_, ?_, ?_⟩
  · intro h1
    simp [h1]
  · intro h1 h2
    rw [if_neg (by omega), if_pos h2]
  · intro h1 h2
    rw [if_neg (by simp [LevelError, LevelInfo] at h1 ⊢; omega),
      if_neg (by omega), if_pos h2]
  · intro h1
    rw [if_neg (by simp [LevelError, LevelDebug] at h1 ⊢; omega),
      if_neg (by simp [LevelInfo, LevelDebug] at h1 ⊢; omega),
      if_neg (by omega)]

theorem c2_witness :
    sampleLogger.level < (Heap.mk [LevelInfo]).cells.length ∧
    sampleLogger.Level (sampleLogger.SetLevel 7 (Heap.mk [LevelInfo])) = LevelError := by
  refine ⟨by decide, ?_⟩
  exact (c2_setLevel_quantization sampleLogger (Heap.mk [LevelInfo]) 7
    (by decide)).2.1 (by decide) (by decide)

def isMetricEvent : Event → Bool
  | Event.metricRecord _ _ _ => true
  | _ => false

def isSinkEvent : Event → Bool
  | Event.sinkCall _ _ _ _ _ => true
  | _ => false

/-- The metric-record events in the trace of a logging call. -/
def metricEvents (es : List Event) : List Event := es.filter isMetricEvent

/-- The sink invocations in the trace of a logging call. -/
def sinkEvents (es : List Event) : List Event := es.filter isSinkEvent

def metricLogger : Logger := { sampleLogger with metric := some 5 }

def noSinkLogger : Logger := { sampleLogger with hasEmitFunc := false }

/-- C3: with a metric attached, `Info` and `Error` record the metric exactly
once per call, as the first event, under every heap (so independently of
the gating decision; in particular when gating fails the sink is never
invoked but the metric still records); `Debug` never records a metric. -/
theorem c3_metric_independent_of_gating (l : Logger) (h : Heap) (m : Nat)
    (msg : String) (err : Option Nat) (kvs : List GoVal)
    (hm : l.metric = some m) :
    (metricEvents (l.Info h msg kvs) = [Event.metricRecord m l.ctx 1] ∧
      (l.Info h msg kvs).head? = some (Event.metricRecord m l.ctx 1)) ∧
    (metricEvents (l.Error h msg err kvs) = [Event.metricRecord m l.ctx 1] ∧
      (l.Error h msg err kvs).head? = some (Event.metricRecord m l.ctx 1)) ∧
    (l.enabled LevelInfo h = false → sinkEvents (l.Info h msg kvs) = []) ∧
    (l.enabled LevelError h = false → sinkEvents (l.Error h msg err kvs) = []) ∧
    metricEvents (l.Debug h msg kvs) = [] := by
  refine ⟨⟨?_, ?_⟩, ⟨?_, ?_⟩, ?_, ?_, ?_⟩
  · simp only [Logger.Info, hm]
    split <;> simp [metricEvents, isMetricEvent, Logger.emit]
  · simp only [Logger.Info, hm]
    split <;> simp
  · simp only [Logger.Error, hm]
    split <;> simp [metricEvents, isMetricEvent, Logger.emit]
  · simp only [Logger.Error, hm]
    split <;> simp
  · intro he
    simp [Logger.Info, hm, he, sinkEvents, isSinkEvent]
  · intro he
    simp [Logger.Error, hm, he, sinkEvents, isSinkEvent]
  · simp only [Logger.Debug]
    split <;> simp [metricEvents, isMetricEvent, Logger.emit]

theorem c3_witness :
    metricLogger.metric = some 5 ∧
    metricEvents (metricLogger.Info (Heap.mk [LevelNone]) "m" [])
      = [Event.metricRecord 5 metricLogger.ctx 1] ∧
    sinkEvents (metricLogger.Info (Heap.mk [LevelNone]) "m" []) = [] ∧
    metricEvents (metricLogger.Debug (Heap.mk [LevelNone]) "m" []) = [] := by
  have h := c3_metric_independent_of_gating metricLogger (Heap.mk [LevelNone]) 5
    "m" none [] rfl
  exact ⟨rfl, h.1.1, h.2.2.1 (by decide), h.2.2.2.2⟩

/-- C4: `enabled v` holds exactly when an emit sink is configured and `v`
is at or more severe than the current threshold (`v ≤ Level()`); with a
nil emit function no `Debug`, `Info` or `Error` call ever invokes the
sink. -/
theorem c4_enabled_iff_and_nil_sink (l : Logger) (h : Heap) (v : Int)
    (msg : String) (err : Option Nat) (kvs : List GoVal) :
    (l.enabled v h = true ↔ (l.hasEmitFunc = true ∧ v ≤ l.Level h)) ∧
    (l.hasEmitFunc = false →
      sinkEvents (l.Debug h msg kvs) = [] ∧
      sinkEvents (l.Info h msg kvs) = [] ∧
      sinkEvents (l.Error h msg err kvs) = []) := by
  constructor
  · simp [Logger.enabled]
  · intro he
    refine ⟨?_, ?_, ?_⟩ <;>
      cases hm : l.metric <;>
        simp [Logger.Debug, Logger.Info, Logger.Error, Logger.enabled, he, hm,
          sinkEvents, isSinkEvent]

theorem c4_witness :
    noSinkLogger.hasEmitFunc = false ∧
    sinkEvents (noSinkLogger.Debug (Heap.mk [LevelDebug]) "m" []) = [] ∧
    sinkEvents (noSinkLogger.Info (Heap.mk [LevelDebug]) "m" []) = [] ∧
    sinkEvents (noSinkLogger.Error (Heap.mk [LevelDebug]) "m" none []) = [] := by
  have h := (c4_enabled_iff_and_nil_sink noSinkLogger (Heap.mk [LevelDebug])
    LevelDebug "m" none []).2 rfl
  exact ⟨rfl, h.1, h.2.1, h.2.2⟩

/-- C7: when a `Debug`, `Info` or `Error` call passes the gate, the sink is
invoked with the severity of the call, the message, the error (`none` for
Debug/Info, the error supplied by the caller verbatim for Error), the
three separately labeled sequences (context-extracted pairs, the
accumulated pairs of the logger, and the call-site pairs passed through
verbatim), and the current
caller-skip depth. -/
theorem c7_emit_pass_through (l : Logger) (h : Heap) (msg : String)
    (err : Option Nat) (kvs : List GoVal) :
    (l.enabled LevelDebug h = true →
      l.Debug h msg kvs = [Event.sinkCall LevelDebug msg none
        ⟨KeyValuesFromContext l.ctx, l.args, kvs⟩ l.callerSkip]) ∧
    (l.enabled LevelInfo h = true →
      sinkEvents (l.Info h msg kvs) = [Event.sinkCall LevelInfo msg none
        ⟨KeyValuesFromContext l.ctx, l.args, kvs⟩ l.callerSkip]) ∧
    (l.enabled LevelError h = true →
      sinkEvents (l.Error h msg err kvs) = [Event.sinkCall LevelError msg err
        ⟨KeyValuesFromContext l.ctx, l.args, kvs⟩ l.callerSkip]) := by
  refine ⟨?_, ?_, ?_⟩ <;> intro he <;>
    cases hm : l.metric <;>
      simp [Logger.Debug, Logger.Info, Logger.Error, Logger.emit, he, hm,
        sinkEvents, isSinkEvent]

theorem c7_witness :
    sampleLogger.Debug (Heap.mk [LevelDebug]) "m" [GoVal.nonstr 1]
      = [Event.sinkCall LevelDebug "m" none
          ⟨KeyValuesFromContext sampleLogger.ctx, sampleLogger.args,
            [GoVal.nonstr 1]⟩ sampleLogger.callerSkip] ∧
    sinkEvents (sampleLogger.Error (Heap.mk [LevelDebug]) "m" (some 3) [])
      = [Event.sinkCall LevelError "m" (some 3)
          ⟨KeyValuesFromContext sampleLogger.ctx, sampleLogger.args, []⟩
          sampleLogger.callerSkip] := by
  have h := c7_emit_pass_through sampleLogger (Heap.mk [LevelDebug]) "m"
    (some 3) [GoVal.nonstr 1]
  have h2 := c7_emit_pass_through sampleLogger (Heap.mk [LevelDebug]) "m"
    (some 3) []
  exact ⟨h.1 (by decide), h2.2.2 (by decide)⟩

/-- Unfolding of `With` on an odd-length argument list: pad with the
sentinel, then append the string-keyed pairs to the copied values. -/
theorem With_odd_eq (l : Logger) (kvs : List GoVal) (hodd : kvs.length % 2 = 1) :
    l.With kvs = { l with args := l.args ++ filterPairs (kvs ++ [GoVal.str "(MISSING)"]) } := by
  have h0 : (kvs.length == 0) = false := by
    simp only [beq_eq_false_iff_ne, ne_eq]
    omega
  have h1 : (kvs.length % 2 != 0) = true := by simp [hodd]
  simp [Logger.With, h0, h1, newLoggerWithValues]

/-- Unfolding of `With` on a nonempty even-length argument list: no
padding, append the string-keyed pairs to the copied values. -/
theorem With_even_eq (l : Logger) (kvs : List GoVal) (hne : kvs ≠ [])
    (heven : kvs.length % 2 = 0) :
    l.With kvs = { l with args := l.args ++ filterPairs kvs } := by
  have h0 : (kvs.length == 0) = false := by
    simp only [beq_eq_false_iff_ne, ne_eq, List.length_eq_zero]
    exact hne
  have h1 : (kvs.length % 2 != 0) = false := by simp [heven]
  simp [Logger.With, h0, h1, newLoggerWithValues]

theorem filterPairs_length_even :
    ∀ kvs : List GoVal, (filterPairs kvs).length % 2 = 0
  | [] => rfl
  | [x] => by cases x <;> rfl
  | a :: b :: rest => by
      have ih := filterPairs_length_even rest
      cases a with
      | str s =>
          show (GoVal.str s :: b :: filterPairs rest).length % 2 = 0
          simp only [List.length_cons]
          omega
      | nonstr n =>
          show (filterPairs rest).length % 2 = 0
          exact ih

theorem filterPairs_concat_pair :
    ∀ (front : List GoVal), front.length % 2 = 0 → ∀ (k : String) (v : GoVal),
      (filterPairs (front ++ [GoVal.str k, v])).getLast? = some v
  | [], _, k, v => by simp [filterPairs]
  | [x], hx, k, v => by simp at hx
  | a :: b :: rest, hev, k, v => by
      have hev2 : rest.length % 2 = 0 := by
        simp only [List.length_cons] at hev
        omega
      have ih := filterPairs_concat_pair rest hev2 k v
      have hne : filterPairs (rest ++ [GoVal.str k, v]) ≠ [] := by
        intro hcontra
        rw [hcontra] at ih
        simp at ih
      cases a with
      | str s =>
          obtain ⟨c, cs, hX⟩ : ∃ c cs, filterPairs (rest ++ [GoVal.str k, v]) = c :: cs := by
            cases hF : filterPairs (rest ++ [GoVal.str k, v]) with
            | nil => exact absurd hF hne
            | cons c cs => exact ⟨c, cs, rfl⟩
          show (GoVal.str s :: b :: filterPairs (rest ++ [GoVal.str k, v])).getLast? = some v
          rw [hX, List.getLast?_cons_cons, List.getLast?_cons_cons, ← hX]
          exact ih
      | nonstr n =>
          show (filterPairs (rest ++ [GoVal.str k, v])).getLast? = some v
          exact ih

/-- C5 counterexample: `With` with the single non-string argument
`nonstr 7` (an odd-length call) yields a logger whose stored sequence is
empty, so its final element is not the `"(MISSING)"` sentinel: after
padding, the filtering step drops the non-string key together with the
sentinel value just appended. -/
theorem c5_counterexample :
    [GoVal.nonstr 7].length % 2 = 1 ∧
    ¬ ((sampleLogger.With [GoVal.nonstr 7]).args.getLast?
        = some (GoVal.str "(MISSING)")) := by decide

/-- C5 amended: a `With` call with an odd number of arguments behaves
exactly as the same call with the sentinel appended (hence everything
later emitted, in particular the message, is identical whether or not the
caller padded); the appended contribution keeps the stored sequence
even-length; and when the key of the final (padded) pair is a string, the
resulting stored sequence does end with the sentinel. -/
theorem c5_odd_with_padding (l : Logger) (kvs : List GoVal)
    (hodd : kvs.length % 2 = 1) :
    l.With kvs = l.With (kvs ++ [GoVal.str "(MISSING)"]) ∧
    (l.args.length % 2 = 0 → (l.With kvs).args.length % 2 = 0) ∧
    (∀ k : String, kvs.getLast? = some (GoVal.str k) →
      (l.With kvs).args.getLast? = some (GoVal.str "(MISSING)")) := by
  have hne2 : kvs ++ [GoVal.str "(MISSING)"] ≠ [] := by simp
  have heven2 : (kvs ++ [GoVal.str "(MISSING)"]).length % 2 = 0 := by
    simp only [List.length_append, List.length_cons, List.length_nil]
    omega
  refine ⟨?_, ?_, ?_⟩
  · rw [With_odd_eq l kvs hodd, With_even_eq l _ hne2 heven2]
  · intro hargs
    rw [With_odd_eq l kvs hodd]
    simp only [List.length_append]
    have := filterPairs_length_even (kvs ++ [GoVal.str "(MISSING)"])
    omega
  · intro k hlast
    have hkne : kvs ≠ [] := by
      intro hcontra
      rw [hcontra] at hlast
      simp at hlast
    have hdecomp := List.dropLast_concat_getLast hkne
    have hgl : kvs.getLast hkne = GoVal.str k := by
      have hq := List.getLast?_eq_getLast kvs hkne
      rw [hq] at hlast
      exact Option.some_injective _ hlast
    have hdlen : kvs.dropLast.length % 2 = 0 := by
      have hld := List.length_dropLast kvs
      have hpos : 0 < kvs.length := List.length_pos.mpr hkne
      omega
    rw [With_odd_eq l kvs hodd]
    have hsplit : kvs ++ [GoVal.str "(MISSING)"]
        = kvs.dropLast ++ [GoVal.str k, GoVal.str "(MISSING)"] := by
      conv_lhs => rw [← hdecomp]
      rw [hgl, List.append_assoc]
      rfl
    have hlastfp := filterPairs_concat_pair kvs.dropLast hdlen k (GoVal.str "(MISSING)")
    show (l.args ++ filterPairs (kvs ++ [GoVal.str "(MISSING)"])).getLast? = _
    rw [hsplit, List.getLast?_append, hlastfp]
    rfl

theorem c5_witness :
    [GoVal.str "k"].length % 2 = 1 ∧
    sampleLogger.With [GoVal.str "k"]
      = sampleLogger.With [GoVal.str "k", GoVal.str "(MISSING)"] ∧
    (sampleLogger.With [GoVal.str "k"]).args.length % 2 = 0 ∧
    (sampleLogger.With [GoVal.str "k"]).args.getLast?
      = some (GoVal.str "(MISSING)") := by
  have h := c5_odd_with_padding sampleLogger [GoVal.str "k"] (by decide)
  exact ⟨by decide, h.1, h.2.1 (by decide), h.2.2 "k" (by decide)⟩

/-- Spec-side reading of the `With` validation: split the flattened
sequence into consecutive pairs. -/
def toPairs : List GoVal → List (GoVal × GoVal)
  | k :: v :: rest => (k, v) :: toPairs rest
  | _ => []

/-- Spec-side: a pair is kept exactly when its key is a string. -/
def keyIsString : GoVal × GoVal → Bool
  | (GoVal.str _, _) => true
  | _ => false

/-- Spec-side: flatten a pair list back into an alternating sequence. -/
def flattenPairs : List (GoVal × GoVal) → List GoVal
  | [] => []
  | (k, v) :: rest => k :: v :: flattenPairs rest

theorem filterPairs_eq_spec :
    ∀ kvs : List GoVal,
      filterPairs kvs = flattenPairs ((toPairs kvs).filter keyIsString)
  | [] => rfl
  | [x] => by cases x <;> rfl
  | a :: b :: rest => by
      have ih := filterPairs_eq_spec rest
      cases a with
      | str s => simp [filterPairs, toPairs, flattenPairs, keyIsString, ih]
      | nonstr n => simp [filterPairs, toPairs, keyIsString, ih]

/-- C6: a `With` call (here on a nonempty, even-length argument list, so
the padding path is not involved) drops exactly the pairs whose key is not
a string — the key and its following value — and appends all string-keyed
pairs to the stored sequence, preserving their relative order. -/
theorem c6_nonstring_keys_dropped (l : Logger) (kvs : List GoVal)
    (hne : kvs ≠ []) (heven : kvs.length % 2 = 0) :
    (l.With kvs).args
      = l.args ++ flattenPairs ((toPairs kvs).filter keyIsString) := by
  rw [With_even_eq l kvs hne heven]
  show l.args ++ filterPairs kvs = _
  rw [filterPairs_eq_spec]

theorem c6_witness :
    (sampleLogger.With [GoVal.nonstr 7, GoVal.str "dropped",
        GoVal.str "k", GoVal.nonstr 1]).args
      = [GoVal.str "k", GoVal.nonstr 1] := by
  have h := c6_nonstring_keys_dropped sampleLogger
    [GoVal.nonstr 7, GoVal.str "dropped", GoVal.str "k", GoVal.nonstr 1]
    (by decide) (by decide)
  rw [h]
  decide

/-- C8: `With` with zero arguments returns the receiver itself. -/
theorem c8_with_empty_identity (l : Logger) : l.With [] = l := rfl

/-- A Go slice header over the array heap: backing array id and length.
The capacity is the full length of the backing array (the offset is
always zero in this code). -/
structure GoSlice where
  arr : Nat
  len : Nat
deriving DecidableEq, Repr

/-- The heap of slice backing arrays, for the aliasing model of `args`. -/
structure Mem where
  arrays : List (List GoVal)
deriving DecidableEq, Repr

def Mem.arrData (m : Mem) (i : Nat) : List GoVal := m.arrays.getD i []

/-- The values a slice denotes. -/
def sliceData (m : Mem) (s : GoSlice) : List GoVal := (m.arrData s.arr).take s.len

/-- The capacity of a slice. -/
def sliceCap (m : Mem) (s : GoSlice) : Nat := (m.arrData s.arr).length

/-- `make([]interface{}, len(args))` followed by `copy`: a fresh backing
array holding exactly the copied values (capacity equals length). -/
def copySlice (m : Mem) (s : GoSlice) : Mem × GoSlice :=
  (⟨m.arrays ++ [sliceData m s]⟩, ⟨m.arrays.length, s.len⟩)

/-- Go `append`: write in place when capacity suffices, otherwise move the
elements to a fresh backing array. -/
def goAppend (m : Mem) (s : GoSlice) (xs : List GoVal) : Mem × GoSlice :=
  if s.len + xs.length ≤ sliceCap m s then
    (⟨m.arrays.set s.arr
        ((m.arrData s.arr).take s.len ++ xs
          ++ (m.arrData s.arr).drop (s.len + xs.length))⟩,
     ⟨s.arr, s.len + xs.length⟩)
  else
    (⟨m.arrays ++ [sliceData m s ++ xs]⟩,
     ⟨m.arrays.length, s.len + xs.length⟩)

/-- The `With` append loop as it acts on the args slice of the new logger. -/
def appendLoop (m : Mem) (d : GoSlice) : List GoVal → Mem × GoSlice
  | GoVal.str k :: v :: rest =>
      let md := goAppend m d [GoVal.str k, v]
      appendLoop md.1 md.2 rest
  | _ :: _ :: rest => appendLoop m d rest
  | _ => (m, d)

/-- The action of `With` on the args slice of the receiver in memory:
identity on empty input, otherwise pad, copy into a fresh backing array,
and append the string-keyed pairs there. -/
def withArgsSlice (m : Mem) (s : GoSlice) (keyValues : List GoVal) : Mem × GoSlice :=
  if keyValues.length == 0 then (m, s)
  else
    let kvs :=
      if keyValues.length % 2 != 0 then keyValues ++ [GoVal.str "(MISSING)"]
      else keyValues
    let md := copySlice m s
    appendLoop md.1 md.2 kvs

theorem goAppend_frame (m : Mem) (d : GoSlice) (xs : List GoVal) (j : Nat)
    (hj : j < m.arrays.length) (hne : j ≠ d.arr) :
    (goAppend m d xs).1.arrData j = m.arrData j ∧
    j < (goAppend m d xs).1.arrays.length ∧ j ≠ (goAppend m d xs).2.arr := by
  unfold goAppend
  split
  · refine ⟨?_, ?_, ?_⟩
    · simp [Mem.arrData, List.getD_eq_getElem?_getD, List.getElem?_set_ne (Ne.symm hne)]
    · simpa using hj
    · exact hne
  · refine ⟨?_, ?_, ?_⟩
    · simp [Mem.arrData, List.getD_eq_getElem?_getD, List.getElem?_append_left hj]
    · simp
      omega
    · exact Nat.ne_of_lt hj

theorem appendLoop_frame :
    ∀ (kvs : List GoVal) (m : Mem) (d : GoSlice) (j : Nat),
      j < m.arrays.length → j ≠ d.arr →
      (appendLoop m d kvs).1.arrData j = m.arrData j
  | [], m, d, j, _, _ => rfl
  | [x], m, d, j, _, _ => by cases x <;> rfl
  | a :: b :: rest, m, d, j, hj, hne => by
      cases a with
      | str s =>
          have hg := goAppend_frame m d [GoVal.str s, b] j hj hne
          have ih := appendLoop_frame rest (goAppend m d [GoVal.str s, b]).1
            (goAppend m d [GoVal.str s, b]).2 j hg.2.1 hg.2.2
          show (appendLoop (goAppend m d [GoVal.str s, b]).1
            (goAppend m d [GoVal.str s, b]).2 rest).1.arrData j = _
          rw [ih, hg.1]
      | nonstr n =>
          exact appendLoop_frame rest m d j hj hne

/-- A `With` derivation never changes the values denoted by any slice that
already existed in memory — the receiver itself or any sibling derived
earlier — because it appends only to a freshly allocated backing array. A
non-copying `With` (appending in place onto the receiver) would violate
this for a sibling sharing the backing array. -/
theorem withArgsSlice_frame (m : Mem) (s : GoSlice) (kvs : List GoVal)
    (t : GoSlice) (ht : t.arr < m.arrays.length) :
    sliceData (withArgsSlice m s kvs).1 t = sliceData m t := by
  have key : ∀ kvs2 : List GoVal,
      sliceData (appendLoop (copySlice m s).1 (copySlice m s).2 kvs2).1 t
        = sliceData m t := by
    intro kvs2
    have hfr := appendLoop_frame kvs2 (copySlice m s).1 (copySlice m s).2 t.arr
      (by
        show t.arr < (m.arrays ++ [sliceData m s]).length
        simp
        omega)
      (Nat.ne_of_lt ht)
    simp only [sliceData]
    rw [hfr]
    show (((⟨m.arrays ++ [sliceData m s]⟩ : Mem).arrData t.arr).take t.len) = _
    simp [Mem.arrData, List.getD_eq_getElem?_getD, List.getElem?_append_left ht]
  unfold withArgsSlice
  split
  · rfl
  · exact key _

/-- The append loop keeps its slice pointing at an array inside memory and
never shrinks memory. -/
theorem appendLoop_valid :
    ∀ (kvs : List GoVal) (m : Mem) (d : GoSlice),
      d.arr < m.arrays.length →
      (appendLoop m d kvs).2.arr < (appendLoop m d kvs).1.arrays.length ∧
      m.arrays.length ≤ (appendLoop m d kvs).1.arrays.length
  | [], _, _, hd => ⟨hd, Nat.le_refl _⟩
  | [x], m, d, hd => by cases x <;> exact ⟨hd, Nat.le_refl _⟩
  | a :: b :: rest, m, d, hd => by
      cases a with
      | str s =>
          have hg : (goAppend m d [GoVal.str s, b]).2.arr
                < (goAppend m d [GoVal.str s, b]).1.arrays.length ∧
              m.arrays.length ≤ (goAppend m d [GoVal.str s, b]).1.arrays.length := by
            unfold goAppend
            split
            · exact ⟨by simpa using hd, by simp⟩
            · exact ⟨by simp, by simp⟩
          have ih := appendLoop_valid rest (goAppend m d [GoVal.str s, b]).1
            (goAppend m d [GoVal.str s, b]).2 hg.1
          exact ⟨ih.1, Nat.le_trans hg.2 ih.2⟩
      | nonstr n => exact appendLoop_valid rest m d hd

/-- The slice a `With` derivation returns is valid in the resulting
memory, and memory only grows. -/
theorem withArgsSlice_valid (m : Mem) (s : GoSlice) (kvs : List GoVal)
    (hs : s.arr < m.arrays.length) :
    (withArgsSlice m s kvs).2.arr < (withArgsSlice m s kvs).1.arrays.length ∧
    m.arrays.length ≤ (withArgsSlice m s kvs).1.arrays.length := by
  unfold withArgsSlice
  split
  · exact ⟨hs, Nat.le_refl _⟩
  · have hd : (copySlice m s).2.arr < (copySlice m s).1.arrays.length := by
      simp [copySlice]
    constructor
    · exact (appendLoop_valid _ _ _ hd).1
    · have h1 : m.arrays.length ≤ (copySlice m s).1.arrays.length := by
        simp [copySlice]
      exact Nat.le_trans h1 (appendLoop_valid _ _ _ hd).2

/-- All fields of a `With` result other than `args` equal those of the
receiver, and `args` extends the old values with the call contribution. -/
theorem With_fields (l : Logger) (kvs : List GoVal) :
    ∃ t, l.With kvs = { l with args := l.args ++ t } := by
  by_cases h0 : kvs = []
  · refine ⟨[], ?_⟩
    rw [h0]
    show l = _
    simp
  · rcases Nat.mod_two_eq_zero_or_one kvs.length with hpar | hpar
    · exact ⟨filterPairs kvs, With_even_eq l kvs h0 hpar⟩
    · exact ⟨filterPairs (kvs ++ [GoVal.str "(MISSING)"]), With_odd_eq l kvs hpar⟩

/-- C9: every derivation defensively copies the accumulated values of the
receiver, so in the memory model of Go slices the stored pairs of one
logger are never mutated by operations on another. Two-logger guarantee:
derive D from L via `With` (D is the returned memory and slice); then a
subsequent `With` on D leaves the values denoted by the args slice of L
unchanged, and vice versa, a further `With` derivation from L leaves the
values denoted by the slice of D unchanged; in general a `With` from any
receiver slice leaves every slice already present in memory denoting the
same values. And each derivation changes only its intended field:
`Context` substitutes the context, `Metric` the metric, `With` appends to
`args`, and `Clone` copies every field except the forked level cell. -/
theorem c9_defensive_copy_and_frames (l : Logger) (h : Heap) (c : Ctx)
    (mt : Option Nat) (kvs kvs1 kvs2 : List GoVal) (m : Mem) (sL : GoSlice)
    (hL : sL.arr < m.arrays.length) :
    (∀ s t : GoSlice, t.arr < m.arrays.length →
      sliceData (withArgsSlice m s kvs2).1 t = sliceData m t) ∧
    sliceData (withArgsSlice (withArgsSlice m sL kvs1).1
        (withArgsSlice m sL kvs1).2 kvs2).1 sL = sliceData m sL ∧
    sliceData (withArgsSlice (withArgsSlice m sL kvs1).1 sL kvs2).1
        (withArgsSlice m sL kvs1).2
      = sliceData (withArgsSlice m sL kvs1).1 (withArgsSlice m sL kvs1).2 ∧
    l.Context c = { l with ctx := c } ∧
    l.Metric mt = { l with metric := mt } ∧
    (∃ t, l.With kvs = { l with args := l.args ++ t }) ∧
    ((l.Clone h).1.ctx = l.ctx ∧ (l.Clone h).1.args = l.args ∧
      (l.Clone h).1.metric = l.metric ∧
      (l.Clone h).1.hasEmitFunc = l.hasEmitFunc ∧
      (l.Clone h).1.callerSkip = l.callerSkip) := by
  have hvalid := withArgsSlice_valid m sL kvs1 hL
  have hLgrown : sL.arr < (withArgsSlice m sL kvs1).1.arrays.length :=
    Nat.lt_of_lt_of_le hL hvalid.2
  refine ⟨?_, ?_, ?_, rfl, rfl, With_fields l kvs, rfl, rfl, rfl, rfl, rfl⟩
  · intro s t ht
    exact withArgsSlice_frame m s kvs2 t ht
  · rw [withArgsSlice_frame (withArgsSlice m sL kvs1).1 (withArgsSlice m sL kvs1).2
      kvs2 sL hLgrown]
    exact withArgsSlice_frame m sL kvs1 sL hL
  · exact withArgsSlice_frame (withArgsSlice m sL kvs1).1 sL kvs2
      (withArgsSlice m sL kvs1).2 hvalid.1

theorem c9_witness :
    (GoSlice.mk 0 2).arr < (Mem.mk [[GoVal.str "a", GoVal.nonstr 0]]).arrays.length ∧
    sliceData (withArgsSlice
        (withArgsSlice (Mem.mk [[GoVal.str "a", GoVal.nonstr 0]])
          (GoSlice.mk 0 2) [GoVal.str "x", GoVal.str "y"]).1
        (withArgsSlice (Mem.mk [[GoVal.str "a", GoVal.nonstr 0]])
          (GoSlice.mk 0 2) [GoVal.str "x", GoVal.str "y"]).2
        [GoVal.str "z", GoVal.nonstr 9]).1 (GoSlice.mk 0 2)
      = sliceData (Mem.mk [[GoVal.str "a", GoVal.nonstr 0]]) (GoSlice.mk 0 2) ∧
    sliceData (withArgsSlice
        (withArgsSlice (Mem.mk [[GoVal.str "a", GoVal.nonstr 0]])
          (GoSlice.mk 0 2) [GoVal.str "x", GoVal.str "y"]).1
        (GoSlice.mk 0 2) [GoVal.str "z", GoVal.nonstr 9]).1
        (withArgsSlice (Mem.mk [[GoVal.str "a", GoVal.nonstr 0]])
          (GoSlice.mk 0 2) [GoVal.str "x", GoVal.str "y"]).2
      = sliceData (withArgsSlice (Mem.mk [[GoVal.str "a", GoVal.nonstr 0]])
          (GoSlice.mk 0 2) [GoVal.str "x", GoVal.str "y"]).1
        (withArgsSlice (Mem.mk [[GoVal.str "a", GoVal.nonstr 0]])
          (GoSlice.mk 0 2) [GoVal.str "x", GoVal.str "y"]).2 ∧
    sampleLogger.Context [GoVal.str "c"]
      = { sampleLogger with ctx := [GoVal.str "c"] } := by
  have h := c9_defensive_copy_and_frames sampleLogger (Heap.mk [LevelInfo])
    [GoVal.str "c"] (some 2) [] [GoVal.str "x", GoVal.str "y"]
    [GoVal.str "z", GoVal.nonstr 9]
    (Mem.mk [[GoVal.str "a", GoVal.nonstr 0]]) (GoSlice.mk 0 2) (by decide)
  exact ⟨by decide, h.2.1, h.2.2.1, h.2.2.2.1⟩

/-- A derivation step on a logger: the four methods that return a new
Logger. -/
inductive DeriveOp where
  | withOp : List GoVal → DeriveOp
  | contextOp : Ctx → DeriveOp
  | metricOp : Option Nat → DeriveOp
  | cloneOp : DeriveOp

/-- Apply one derivation step, threading the level-cell heap. -/
def applyOp (lh : Logger × Heap) : DeriveOp → Logger × Heap
  | DeriveOp.withOp kvs => (lh.1.With kvs, lh.2)
  | DeriveOp.contextOp c => (lh.1.Context c, lh.2)
  | DeriveOp.metricOp m => (lh.1.Metric m, lh.2)
  | DeriveOp.cloneOp => lh.1.Clone lh.2

/-- Apply a finite sequence of derivation steps. -/
def applyOps (lh : Logger × Heap) (ops : List DeriveOp) : Logger × Heap :=
  ops.foldl applyOp lh

/-- A well-formed stored sequence: alternating pairs whose keys are
strings (hence even length, string at every even index). -/
def wfArgs : List GoVal → Bool
  | [] => true
  | GoVal.str _ :: _ :: rest => wfArgs rest
  | _ => false

theorem wfArgs_append :
    ∀ (a b : List GoVal), wfArgs a = true → wfArgs b = true →
      wfArgs (a ++ b) = true
  | [], b, _, hb => hb
  | [x], b, ha, _ => by cases x <;> simp [wfArgs] at ha
  | x :: y :: rest, b, ha, hb => by
      cases x with
      | nonstr n => simp [wfArgs] at ha
      | str s =>
          have ha2 : wfArgs rest = true := ha
          show wfArgs (GoVal.str s :: y :: (rest ++ b)) = true
          show wfArgs (rest ++ b) = true
          exact wfArgs_append rest b ha2 hb

theorem wfArgs_filterPairs :
    ∀ kvs : List GoVal, wfArgs (filterPairs kvs) = true
  | [] => rfl
  | [x] => by cases x <;> rfl
  | a :: b :: rest => by
      have ih := wfArgs_filterPairs rest
      cases a with
      | str s =>
          show wfArgs (GoVal.str s :: b :: filterPairs rest) = true
          show wfArgs (filterPairs rest) = true
          exact ih
      | nonstr n =>
          show wfArgs (filterPairs rest) = true
          exact ih

theorem wfArgs_With (l : Logger) (kvs : List GoVal)
    (hl : wfArgs l.args = true) : wfArgs (l.With kvs).args = true := by
  by_cases h0 : kvs = []
  · rw [h0]
    exact hl
  · rcases Nat.mod_two_eq_zero_or_one kvs.length with hpar | hpar
    · rw [With_even_eq l kvs h0 hpar]
      exact wfArgs_append l.args (filterPairs kvs) hl (wfArgs_filterPairs kvs)
    · rw [With_odd_eq l kvs hpar]
      exact wfArgs_append l.args (filterPairs (kvs ++ [GoVal.str "(MISSING)"]))
        hl (wfArgs_filterPairs _)

theorem wfArgs_applyOp (lh : Logger × Heap) (op : DeriveOp)
    (hl : wfArgs lh.1.args = true) : wfArgs (applyOp lh op).1.args = true := by
  cases op with
  | withOp kvs => exact wfArgs_With lh.1 kvs hl
  | contextOp c => exact hl
  | metricOp m => exact hl
  | cloneOp => exact hl

theorem wfArgs_applyOps :
    ∀ (ops : List DeriveOp) (lh : Logger × Heap),
      wfArgs lh.1.args = true → wfArgs (applyOps lh ops).1.args = true
  | [], _, hl => hl
  | op :: ops, lh, hl =>
      wfArgs_applyOps ops (applyOp lh op) (wfArgs_applyOp lh op hl)

theorem wfArgs_length_even :
    ∀ xs : List GoVal, wfArgs xs = true → xs.length % 2 = 0
  | [], _ => rfl
  | [x], hx => by cases x <;> simp [wfArgs] at hx
  | a :: b :: rest, hab => by
      cases a with
      | nonstr n => simp [wfArgs] at hab
      | str s =>
          have h2 : wfArgs rest = true := hab
          have ih := wfArgs_length_even rest h2
          simp only [List.length_cons]
          omega

theorem wfArgs_even_index :
    ∀ (xs : List GoVal), wfArgs xs = true → ∀ i : Nat, i % 2 = 0 →
      i < xs.length → ∃ k, xs.getD i (GoVal.nonstr 0) = GoVal.str k
  | [], _, i, _, hi => by simp at hi
  | [x], hx, i, _, _ => by cases x <;> simp [wfArgs] at hx
  | a :: b :: rest, hab, i, hieven, hi => by
      cases a with
      | nonstr n => simp [wfArgs] at hab
      | str s =>
          have h2 : wfArgs rest = true := hab
          cases i with
          | zero => exact ⟨s, rfl⟩
          | succ i1 =>
            cases i1 with
            | zero => simp at hieven
            | succ i2 =>
                have hie : i2 % 2 = 0 := by omega
                have hlt : i2 < rest.length := by
                  simp only [List.length_cons] at hi
                  omega
                exact wfArgs_even_index rest h2 i2 hie hlt

/-- C10: any logger obtained from `NewLogger` by a finite sequence of
`With`, `Context`, `Metric` and `Clone` derivations has a well-formed
stored sequence: even length, and a string key at every even index —
`NewLogger` starts empty, `With` appends only validated string-keyed
pairs, and the other derivations carry the sequence over unchanged. -/
theorem c10_reachable_args_wellformed (hasEmit : Bool) (cs : Int) (h : Heap)
    (ops : List DeriveOp) :
    wfArgs (applyOps (NewLogger hasEmit cs h) ops).1.args = true ∧
    (applyOps (NewLogger hasEmit cs h) ops).1.args.length % 2 = 0 ∧
    (∀ i : Nat, i % 2 = 0 →
      i < (applyOps (NewLogger hasEmit cs h) ops).1.args.length →
      ∃ k, (applyOps (NewLogger hasEmit cs h) ops).1.args.getD i (GoVal.nonstr 0)
        = GoVal.str k) := by
  have hwf := wfArgs_applyOps ops (NewLogger hasEmit cs h) rfl
  exact ⟨hwf, wfArgs_length_even _ hwf, wfArgs_even_index _ hwf⟩

theorem c10_witness :
    wfArgs (applyOps (NewLogger true 0 (Heap.mk []))
      [DeriveOp.withOp [GoVal.str "a", GoVal.nonstr 1],
        DeriveOp.cloneOp]).1.args = true ∧
    (∃ k, (applyOps (NewLogger true 0 (Heap.mk []))
      [DeriveOp.withOp [GoVal.str "a", GoVal.nonstr 1],
        DeriveOp.cloneOp]).1.args.getD 0 (GoVal.nonstr 0) = GoVal.str k) := by
  have h := c10_reachable_args_wellformed true 0 (Heap.mk [])
    [DeriveOp.withOp [GoVal.str "a", GoVal.nonstr 1], DeriveOp.cloneOp]
  exact ⟨h.1, h.2.2 0 (by decide) (by decide)⟩

end Telemetry
